import Mathlib

/-!
Shallow embedding of the animation/rendering core of the repository
(`layout.rs`, `palette.rs`, `renderer.rs`, `animator.rs`, `game.rs`).

Machine-level conventions of the embedding:
* Rust `f32` values are modelled by `ℚ` (the concrete values exercised by the
  claims are exactly representable in `f32`, so rational arithmetic agrees
  with the source on them).
* Rust `u16` values are modelled by `ℕ` together with explicit `% 65536`
  wrapping where the source performs unguarded `u16` arithmetic
  (`Pixel::mirror`), and explicit clamping for the `f32 as u16` cast.
* The screen buffer (`&mut [u8]`) is modelled by a `List ℕ` of bytes;
  `slice[i] = v` becomes `List.set`.
* The fallible screen-lock acquisition in `Animation::play` is modelled by an
  `Except String ScreenModel` argument: `.ok` is a successful `Mutex::lock`,
  `.error` a poisoned lock, matching the sequencing of the source.
-/

namespace TheGame

/-- Model of `layout.rs` `Coordinate`: a 2D position with `f32` components,
here rational. -/
structure Coordinate where
  x : ℚ
  y : ℚ
deriving DecidableEq, Repr

/-- Componentwise addition, from `impl Add for Coordinate` in `layout.rs`. -/
def Coordinate.add (a b : Coordinate) : Coordinate :=
  ⟨a.x + b.x, a.y + b.y⟩

/-- Scalar multiplication, from `impl Mul<f32> for Coordinate` in `layout.rs`. -/
def Coordinate.scale (a : Coordinate) (r : ℚ) : Coordinate :=
  ⟨a.x * r, a.y * r⟩

/-- Model of `palette.rs` `Color`: RGB or RGBA with byte channels. -/
inductive Color
  | RGB (r g b : ℕ)
  | RGBA (r g b a : ℕ)
deriving DecidableEq, Repr

/-- Model of `layout.rs` `MirrorDirectionValue`: a mirror transform carrying
the axis extent. -/
inductive MirrorDirectionValue
  | FlipHorizontal (extent : ℕ)
  | FlipVertical (extent : ℕ)
  | None
deriving DecidableEq, Repr

/-- Model of `layout.rs` `MirrorDirection`: a mirror transform without extent. -/
inductive MirrorDirection
  | FlipHorizontal
  | FlipVertical
  | None
deriving DecidableEq, Repr

/-- The modulus of `u16` arithmetic. -/
def u16Size : ℕ := 65536

/-- The Rust cast `f32 as u16` used in `renderer.rs` (`rect.1.x as u16`,
`coordinate.x as u16`): truncation toward zero, saturating at the `u16`
range (negative values clamp to 0 via `Int.toNat`). -/
def ratToU16 (q : ℚ) : ℕ :=
  min 65535 q.floor.toNat

/-- Model of `Pixel::mirror` in `renderer.rs`: `width_height - x` on `u16`
values, i.e. wrapping subtraction modulo 2^16 (the source has no guard, so a
coordinate larger than the extent underflows and wraps). Arguments are `u16`
values, i.e. below `u16Size`. -/
def Pixel.mirror (x extent : ℕ) : ℕ :=
  (extent + u16Size - x) % u16Size

/-- Rust `f32::round` as used in `Pixel::draw` (`area.x.round() as i32`):
round half away from zero, yielding an integer. -/
def roundAway (q : ℚ) : ℤ :=
  if q < 0 then -(⌊-q + 1 / 2⌋) else ⌊q + 1 / 2⌋

/-- The byte quadruple written for a color by `Pixel::draw`: an RGB color
forces alpha to 255, an RGBA color is taken verbatim. -/
def colorBytes : Color → ℕ × ℕ × ℕ × ℕ
  | .RGB r g b => (r, g, b, 255)
  | .RGBA r g b a => (r, g, b, a)

/-- The four consecutive byte stores of `Pixel::draw` at a buffer index. -/
def writeRGBA (buf : List ℕ) (idx r g b a : ℕ) : List ℕ :=
  ((((buf.set idx r).set (idx + 1) g).set (idx + 2) b).set (idx + 3) a)

/-- The mirror `match` at the top of the cell loop of `Pixel::draw`:
`FlipVertical` mirrors the X coordinate, `FlipHorizontal` the Y coordinate,
`None` passes the coordinate through. The coordinate is cast to `u16` for
the mirror arithmetic and back to `f32`. -/
def applyMirror (mirror : MirrorDirectionValue) (c : Coordinate) : Coordinate :=
  match mirror with
  | .FlipVertical maxWidth => ⟨(Pixel.mirror (ratToU16 c.x) maxWidth : ℚ), c.y⟩
  | .FlipHorizontal maxHeight => ⟨c.x, (Pixel.mirror (ratToU16 c.y) maxHeight : ℚ)⟩
  | .None => c

/-- The body of the cell loop of `Pixel::draw` in `renderer.rs`: apply the
mirror transform, add the offset, round to the nearest integer, skip the
cell when off-screen, otherwise write 4 bytes at the row-major index
`(y * width + x) * 4`. -/
def drawCell (screenWidth screenHeight : ℕ) (mirror : MirrorDirectionValue)
    (offset : Coordinate) (buf : List ℕ) (cell : Color × Coordinate) : List ℕ :=
  let area := applyMirror mirror cell.2
  let fx := roundAway (offset.x + area.x)
  let fy := roundAway (offset.y + area.y)
  if fx < 0 ∨ fy < 0 ∨ (screenWidth : ℤ) ≤ fx ∨ (screenHeight : ℤ) ≤ fy then
    buf
  else
    let idx := (fy.toNat * screenWidth + fx.toNat) * 4
    match cell.1 with
    | .RGB r g b => writeRGBA buf idx r g b 255
    | .RGBA r g b a => writeRGBA buf idx r g b a

/-- Model of `renderer.rs` `Pixel`: an ordered list of colored cells. -/
structure Pixel where
  pixels : List (Color × Coordinate)
deriving DecidableEq, Repr

/-- Model of the `Screen` trait surface consumed by the core: width, height
and a row-major RGBA byte buffer. -/
structure ScreenModel where
  width : ℕ
  height : ℕ
  buffer : List ℕ
deriving DecidableEq, Repr

/-- `Pixel::draw`: fold `drawCell` over all cells of the pixel, mutating the
screen buffer in place. -/
def Pixel.draw (p : Pixel) (scr : ScreenModel) (mirror : MirrorDirectionValue)
    (offset : Coordinate) : ScreenModel :=
  { scr with
    buffer := p.pixels.foldl (drawCell scr.width scr.height mirror offset) scr.buffer }

/-- Model of `renderer.rs` `Frame`: pixels, stored bounding dimensions and an
optional duration (seconds). -/
structure Frame where
  pixels : List Pixel
  height : ℕ
  width : ℕ
  duration : Option ℚ
deriving DecidableEq, Repr

/-- `Frame::get_dimesions` in `renderer.rs`: running maxima of the raw cell
coordinates (cast to `u16`) over all cells of all pixels, starting from 0. -/
def Frame.getDimesions (pixels : List Pixel) : ℕ × ℕ :=
  pixels.foldl
    (fun wh p =>
      p.pixels.foldl
        (fun wh2 rect => (max wh2.1 (ratToU16 rect.2.x), max wh2.2 (ratToU16 rect.2.y)))
        wh)
    (0, 0)

/-- `Frame::new`: compute the dimensions from the pixels and store them. -/
def Frame.new (pixels : List Pixel) (duration : Option ℚ) : Frame :=
  let wh := Frame.getDimesions pixels
  ⟨pixels, wh.2, wh.1, duration⟩

/-- `Frame::resize`: recompute and overwrite the stored dimensions from the
current pixel state. -/
def Frame.resize (f : Frame) : Frame :=
  let wh := Frame.getDimesions f.pixels
  { f with height := wh.2, width := wh.1 }

/-- The playback state behind the `Sprite` trait of `sprite.rs`: an ordered
frame list, the current frame index and the accumulated timer (seconds). -/
structure SpriteState where
  frames : List Frame
  framePos : ℕ
  timer : ℚ
deriving DecidableEq, Repr

/-- Junk frame used only to totalize out-of-range indexing in the model
(the source panics there). -/
def defaultFrame : Frame :=
  ⟨[], 0, 0, none⟩

/-- The frame currently indexed by the sprite (`self.frames()[self.frame_pos()]`). -/
def currentFrame (s : SpriteState) : Frame :=
  s.frames.getD s.framePos defaultFrame

/-- The duration computed at the top of `Animation::play` in `animator.rs`:
the current frame's explicit duration if set, else `1.0 / frames.len()`
seconds. -/
def currentDuration (s : SpriteState) : ℚ :=
  match (currentFrame s).duration with
  | some d => d
  | none => 1 / (s.frames.length : ℚ)

/-- The frame-advance step of `Animation::play` in `animator.rs`:
`timer += delta`; then if `timer >= duration`, `timer -= duration` and
`frame_pos = (frame_pos + 1) % frames.len()`. -/
def playStep (s : SpriteState) (delta : ℚ) : SpriteState :=
  let duration := currentDuration s
  let t := s.timer + delta
  if duration ≤ t then
    { s with timer := t - duration, framePos := (s.framePos + 1) % s.frames.length }
  else
    { s with timer := t }

/-- Model of `window.rs` `WindowError`, restricted to the variant reachable
from `Animation::play`. -/
inductive WindowError
  | ScreenLockError (msg : String)
deriving DecidableEq, Repr

/-- The buffer produced by `Screen::clear` in `window.rs`: every 4-byte cell
becomes RGBA black `[0, 0, 0, 255]`. -/
def clearedBuffer (n : ℕ) : List ℕ :=
  (List.range n).map (fun i => if i % 4 = 3 then 255 else 0)

/-- `Screen::clear` on the screen model. -/
def ScreenModel.clear (scr : ScreenModel) : ScreenModel :=
  { scr with buffer := clearedBuffer scr.buffer.length }

/-- `Animation::play` in `animator.rs`, with the screen-lock acquisition made
explicit: first the frame-advance step mutates the sprite, then the lock is
taken; on lock failure the error is returned (with the sprite already
mutated), on success the screen is cleared and every pixel of the current
frame is drawn with the mirror extent taken from the frame's stored
dimensions. -/
def Animation.play (s : SpriteState) (delta : ℚ) (lock : Except String ScreenModel)
    (mirror : MirrorDirection) (offset : Coordinate) :
    SpriteState × Except WindowError ScreenModel :=
  let s2 := playStep s delta
  match lock with
  | .error e => (s2, .error (.ScreenLockError e))
  | .ok scr =>
    let scr2 := scr.clear
    let frame := s2.frames.getD s2.framePos defaultFrame
    let scr3 := frame.pixels.foldl
      (fun sc p =>
        match mirror with
        | .FlipVertical => p.draw sc (.FlipVertical frame.width) offset
        | .FlipHorizontal => p.draw sc (.FlipHorizontal frame.height) offset
        | .None => p.draw sc .None offset)
      scr2
    (s2, .ok scr3)

/-- The animations a `Character` exposes, selected by `GameState::update`. -/
inductive AnimKind
  | idle
  | sideWalk
  | frontWalk
  | backWalk
deriving DecidableEq, Repr

/-- The animation-selection `match` of `GameState::update` in `game.rs`,
with its source arm order: `Some(Coordinate { x: -1.0, .. })` plays
side-walk mirrored, then `x: 1.0` side-walk, then `y: 1.0` front-walk, then
`y: -1.0` back-walk, and the wildcard plays idle. Rust struct patterns with
a literal field and `..` test only that field, first match wins. -/
def selectAnimation (input : Option Coordinate) : AnimKind × MirrorDirection :=
  match input with
  | some c =>
    if c.x = -1 then (.sideWalk, .FlipVertical)
    else if c.x = 1 then (.sideWalk, .None)
    else if c.y = 1 then (.frontWalk, .None)
    else if c.y = -1 then (.backWalk, .None)
    else (.idle, .None)
  | none => (.idle, .None)

/-- The movement update at the top of `GameState::update`: when an input
vector was received this tick, `player_pos += inp * player_speed * delta`;
otherwise the position is unchanged. -/
def applyInput (pos : Coordinate) (input : Option Coordinate) (speed delta : ℚ) :
    Coordinate :=
  match input with
  | some i => pos.add ((i.scale speed).scale delta)
  | none => pos

/-! ## Helper lemmas -/

/-- On the `u16` domain, the wrapping subtraction of `Pixel::mirror` agrees
with mathematical subtraction as soon as the coordinate does not exceed the
extent. -/
lemma mirror_eq_sub {x e : ℕ} (hxe : x ≤ e) (he : e < u16Size) :
    Pixel.mirror x e = e - x := by
  unfold Pixel.mirror u16Size
  unfold u16Size at he
  have h1 : e + 65536 - x = (e - x) + 65536 := by omega
  rw [h1, Nat.add_mod_right, Nat.mod_eq_of_lt (by omega)]

/-! ## Claim theorems -/

/-- C6: the mirror transform is an involution: for every extent (a `u16`
value, hence below `u16Size`) and every coordinate `x` in `[0, extent]`,
`mirror (mirror x extent) extent = x`. -/
theorem mirror_involution (extent x : ℕ) (hx : x ≤ extent) (he : extent < u16Size) :
    Pixel.mirror (Pixel.mirror x extent) extent = x := by
  rw [mirror_eq_sub hx he, mirror_eq_sub (Nat.sub_le _ _) he]
  omega

/-- C6 witness: the involution at `x = 3`, `extent = 10`. -/
theorem mirror_involution_witness :
    3 ≤ 10 ∧ 10 < u16Size ∧ Pixel.mirror (Pixel.mirror 3 10) 10 = 3 :=
  ⟨by decide, by decide, mirror_involution 10 3 (by decide) (by decide)⟩

/-- C8: the player position follows the linear update law
`player_pos += input * speed * delta` when an input vector is received, is
unchanged when none is, and the concrete instance from the spec (position
`(0,0)`, speed 10, delta 0.5, input `(1,0)`) yields exactly `(5.0, 0.0)`. -/
theorem player_position_update_law :
    (∀ (pos i : Coordinate) (speed delta : ℚ),
        applyInput pos (some i) speed delta =
          ⟨pos.x + i.x * speed * delta, pos.y + i.y * speed * delta⟩) ∧
    (∀ (pos : Coordinate) (speed delta : ℚ), applyInput pos none speed delta = pos) ∧
    applyInput ⟨0, 0⟩ (some ⟨1, 0⟩) 10 (1 / 2) = ⟨5, 0⟩ := by
  refine ⟨?_, ?_, by norm_num [applyInput, Coordinate.add, Coordinate.scale]⟩
  · intro pos i speed delta
    simp [applyInput, Coordinate.add, Coordinate.scale, mul_assoc]
  · intro pos speed delta
    rfl

/-- C1 counterexample: the diagonal input `(-1, -1)` does not play idle; it
matches the first arm of the selection `match` (`x == -1`) and plays the
side-walk animation vertically mirrored. -/
theorem selectAnimation_diagonal_not_idle :
    selectAnimation (some ⟨-1, -1⟩) = (AnimKind.sideWalk, MirrorDirection.FlipVertical) ∧
    selectAnimation (some ⟨-1, -1⟩) ≠ (AnimKind.idle, MirrorDirection.None) := by
  constructor <;> decide

/-- C1 amended: animation selection is by first matching case, in source
order: any input with `x = -1` plays side-walk mirrored regardless of `y`;
otherwise `x = 1` plays side-walk unmirrored; otherwise `y = 1` plays
front-walk; otherwise `y = -1` plays back-walk; any remaining input,
including `(0, 0)`, and the no-input case play idle. -/
theorem selectAnimation_first_match (c : Coordinate) :
    (c.x = -1 → selectAnimation (some c) = (.sideWalk, .FlipVertical)) ∧
    (c.x ≠ -1 → c.x = 1 → selectAnimation (some c) = (.sideWalk, .None)) ∧
    (c.x ≠ -1 → c.x ≠ 1 → c.y = 1 → selectAnimation (some c) = (.frontWalk, .None)) ∧
    (c.x ≠ -1 → c.x ≠ 1 → c.y ≠ 1 → c.y = -1 →
        selectAnimation (some c) = (.backWalk, .None)) ∧
    (c.x ≠ -1 → c.x ≠ 1 → c.y ≠ 1 → c.y ≠ -1 →
        selectAnimation (some c) = (.idle, .None)) ∧
    selectAnimation none = (.idle, .None) := by
  refine ⟨?_, ?_, ?_, ?_, ?_, rfl⟩
  · intro h1
    simp [selectAnimation, h1]
  · intro h1 h2
    simp [selectAnimation, h1, h2]
    norm_num
  · intro h1 h2 h3
    simp [selectAnimation, h1, h2, h3]
  · intro h1 h2 h3 h4
    simp [selectAnimation, h1, h2, h3, h4]
    norm_num
  · intro h1 h2 h3 h4
    simp [selectAnimation, h1, h2, h3, h4]

/-- C1 amended witness: the selection at inputs `(1, 0)` and `(0, 0)`. -/
theorem selectAnimation_first_match_witness :
    selectAnimation (some ⟨1, 0⟩) = (AnimKind.sideWalk, MirrorDirection.None) ∧
    selectAnimation (some ⟨0, 0⟩) = (AnimKind.idle, MirrorDirection.None) :=
  ⟨(selectAnimation_first_match ⟨1, 0⟩).2.1 (by decide) (by decide),
   (selectAnimation_first_match ⟨0, 0⟩).2.2.2.2.1
     (by decide) (by decide) (by decide) (by decide)⟩

/-- C2: one call to play performs exactly the frame-advance step: the
duration is the current frame's explicit duration if set, else
`1 / frame_count` seconds; the timer is incremented by delta; if the
incremented timer reaches the duration, the duration is subtracted (the
remainder carries forward) and the frame index becomes
`(frame_pos + 1) mod frame_count`; the frame index moves by at most one
step per call and the frame list itself is untouched. -/
theorem play_frame_advance_step (s : SpriteState) (delta : ℚ)
    (h : s.framePos < s.frames.length) :
    ((currentFrame s).duration = none →
        currentDuration s = 1 / (s.frames.length : ℚ)) ∧
    (∀ d0 : ℚ, (currentFrame s).duration = some d0 → currentDuration s = d0) ∧
    (s.timer + delta < currentDuration s →
        playStep s delta = { s with timer := s.timer + delta }) ∧
    (currentDuration s ≤ s.timer + delta →
        (playStep s delta).timer = s.timer + delta - currentDuration s ∧
        (playStep s delta).framePos = (s.framePos + 1) % s.frames.length) ∧
    ((playStep s delta).framePos = s.framePos ∨
        (playStep s delta).framePos = (s.framePos + 1) % s.frames.length) ∧
    (playStep s delta).frames = s.frames := by
  refine ⟨?_, ?_, ?_, ?_, ?_, ?_⟩
  · intro hd
    simp [currentDuration, hd]
  · intro d0 hd
    simp [currentDuration, hd]
  · intro hlt
    simp only [playStep]
    rw [if_neg (not_le.mpr hlt)]
  · intro hge
    simp only [playStep]
    rw [if_pos hge]
    exact ⟨rfl, rfl⟩
  · by_cases hge : currentDuration s ≤ s.timer + delta
    · right
      simp only [playStep]
      rw [if_pos hge]
    · left
      simp only [playStep]
      rw [if_neg hge]
  · by_cases hge : currentDuration s ≤ s.timer + delta
    · simp only [playStep]
      rw [if_pos hge]
    · simp only [playStep]
      rw [if_neg hge]

/-- C2 witness: a two-frame sprite at frame 0 with timer 0 and delta 1/4
stays at frame 0 or steps to `(0 + 1) % 2`. -/
theorem play_frame_advance_step_witness :
    (playStep ⟨[(⟨[], 0, 0, none⟩ : Frame), ⟨[], 0, 0, none⟩], 0, 0⟩ (1 / 4)).framePos = 0 ∨
    (playStep ⟨[(⟨[], 0, 0, none⟩ : Frame), ⟨[], 0, 0, none⟩], 0, 0⟩ (1 / 4)).framePos =
      (0 + 1) % 2 := by
  have h := play_frame_advance_step
    ⟨[(⟨[], 0, 0, none⟩ : Frame), ⟨[], 0, 0, none⟩], 0, 0⟩ (1 / 4) (by simp)
  simpa using h.2.2.2.2.1

/-- C3 counterexample: for a two-frame sprite with default frame duration
1/2 and an already accumulated timer of 2/5, the call with delta 1/4 has
delta strictly below the current frame's duration and yet advances the
frame index (2/5 + 1/4 reaches 1/2). -/
theorem play_small_delta_counterexample :
    (1 / 4 : ℚ) <
      currentDuration ⟨[(⟨[], 0, 0, none⟩ : Frame), ⟨[], 0, 0, none⟩], 0, 2 / 5⟩ ∧
    (playStep ⟨[(⟨[], 0, 0, none⟩ : Frame), ⟨[], 0, 0, none⟩], 0, 2 / 5⟩ (1 / 4)).framePos ≠
      0 := by
  have hdur :
      currentDuration ⟨[(⟨[], 0, 0, none⟩ : Frame), ⟨[], 0, 0, none⟩], 0, 2 / 5⟩ =
        1 / 2 := by
    norm_num [currentDuration, currentFrame, List.getD_cons_zero]
  constructor
  · rw [hdur]
    norm_num
  · simp only [playStep, hdur]
    rw [if_pos (by norm_num)]
    simp

/-- C3 amended: for every call to play where the accumulated timer plus
delta stays strictly below the current frame's duration, the frame index is
unchanged and the timer increases by exactly delta (a strict increase
whenever delta is positive). -/
theorem play_small_delta_amended (s : SpriteState) (delta : ℚ)
    (h : s.timer + delta < currentDuration s) :
    (playStep s delta).framePos = s.framePos ∧
    (playStep s delta).timer = s.timer + delta ∧
    (0 < delta → s.timer < (playStep s delta).timer) := by
  have hne : ¬ currentDuration s ≤ s.timer + delta := not_le.mpr h
  simp only [playStep]
  rw [if_neg hne]
  refine ⟨rfl, rfl, ?_⟩
  intro hd
  show s.timer < s.timer + delta
  linarith

/-- C3 amended witness: the two-frame sprite with timer 0, delta 1/4. -/
theorem play_small_delta_amended_witness :
    (playStep ⟨[(⟨[], 0, 0, none⟩ : Frame), ⟨[], 0, 0, none⟩], 0, 0⟩ (1 / 4)).framePos = 0 ∧
    (playStep ⟨[(⟨[], 0, 0, none⟩ : Frame), ⟨[], 0, 0, none⟩], 0, 0⟩ (1 / 4)).timer =
      0 + 1 / 4 := by
  have h := play_small_delta_amended
    ⟨[(⟨[], 0, 0, none⟩ : Frame), ⟨[], 0, 0, none⟩], 0, 0⟩ (1 / 4)
    (by norm_num [currentDuration, currentFrame, List.getD_cons_zero])
  exact ⟨h.1, h.2.1⟩

/-- C10: play is not atomic on the lock-error path: the frame-advance step
is applied to the sprite before the screen lock is taken, so when the lock
acquisition fails the call returns the lock error while the sprite state is
already the advanced state (in particular the timer has moved whenever
delta is positive and below the remaining frame time). -/
theorem play_error_path_not_atomic (s : SpriteState) (delta : ℚ) (e : String)
    (m : MirrorDirection) (off : Coordinate) :
    (Animation.play s delta (.error e) m off).1 = playStep s delta ∧
    (Animation.play s delta (.error e) m off).2 =
      Except.error (WindowError.ScreenLockError e) ∧
    (0 < delta → s.timer + delta < currentDuration s →
        (Animation.play s delta (.error e) m off).1.timer ≠ s.timer) := by
  refine ⟨rfl, rfl, ?_⟩
  intro hd hlt
  have ht : (Animation.play s delta (.error e) m off).1.timer = s.timer + delta := by
    show (playStep s delta).timer = s.timer + delta
    simp only [playStep]
    rw [if_neg (not_le.mpr hlt)]
  rw [ht]
  intro hc
  linarith

/-- C10 witness: a poisoned lock still returns a changed timer. -/
theorem play_error_path_not_atomic_witness :
    (Animation.play ⟨[(⟨[], 0, 0, none⟩ : Frame), ⟨[], 0, 0, none⟩], 0, 0⟩ (1 / 4)
        (.error "poisoned") .None ⟨0, 0⟩).1.timer ≠ (0 : ℚ) := by
  have h := play_error_path_not_atomic
    ⟨[(⟨[], 0, 0, none⟩ : Frame), ⟨[], 0, 0, none⟩], 0, 0⟩ (1 / 4) "poisoned" .None ⟨0, 0⟩
  exact h.2.2 (by norm_num)
    (by norm_num [currentDuration, currentFrame, List.getD_cons_zero])

/-- All cells of a pixel list, in scan order, as used by the dimension scan. -/
def allCells (ps : List Pixel) : List (Color × Coordinate) :=
  ps.foldr (fun p acc => p.pixels ++ acc) []

lemma allCells_nil : allCells [] = [] := rfl

lemma allCells_cons (p : Pixel) (ps : List Pixel) :
    allCells (p :: ps) = p.pixels ++ allCells ps := rfl

lemma mem_allCells {ps : List Pixel} {p : Pixel} {rect : Color × Coordinate}
    (hp : p ∈ ps) (hr : rect ∈ p.pixels) : rect ∈ allCells ps := by
  induction ps with
  | nil => cases hp
  | cons q ps ih =>
    rw [allCells_cons, List.mem_append]
    rcases List.mem_cons.mp hp with h | h
    · exact Or.inl (h ▸ hr)
    · exact Or.inr (ih h)

lemma allCells_mem {ps : List Pixel} {rect : Color × Coordinate}
    (h : rect ∈ allCells ps) : ∃ p ∈ ps, rect ∈ p.pixels := by
  induction ps with
  | nil => cases h
  | cons q ps ih =>
    rw [allCells_cons, List.mem_append] at h
    rcases h with h | h
    · exact ⟨q, List.mem_cons_self _ _, h⟩
    · obtain ⟨p, hp, hr⟩ := ih h
      exact ⟨p, List.mem_cons_of_mem _ hp, hr⟩

lemma foldl_max_init_le {α : Type} (g : α → ℕ) (l : List α) (a0 : ℕ) :
    a0 ≤ l.foldl (fun a b => max a (g b)) a0 := by
  induction l generalizing a0 with
  | nil => exact le_refl _
  | cons b l ih => exact le_trans (le_max_left _ _) (ih (max a0 (g b)))

lemma foldl_max_le_of_mem {α : Type} (g : α → ℕ) (l : List α) (a0 : ℕ) (b : α)
    (hb : b ∈ l) : g b ≤ l.foldl (fun a x => max a (g x)) a0 := by
  induction l generalizing a0 with
  | nil => cases hb
  | cons c l ih =>
    rcases List.mem_cons.mp hb with h | h
    · subst h
      exact le_trans (le_max_right _ _) (foldl_max_init_le g l _)
    · exact ih _ h

lemma foldl_max_cases {α : Type} (g : α → ℕ) (l : List α) (a0 : ℕ) :
    l.foldl (fun a x => max a (g x)) a0 = a0 ∨
      ∃ b ∈ l, l.foldl (fun a x => max a (g x)) a0 = g b := by
  induction l generalizing a0 with
  | nil => exact Or.inl rfl
  | cons c l ih =>
    rcases ih (max a0 (g c)) with h | ⟨b, hb, h⟩
    · rcases Nat.le_total a0 (g c) with hle | hle
      · right
        exact ⟨c, List.mem_cons_self _ _, by rw [List.foldl_cons, h, Nat.max_eq_right hle]⟩
      · left
        rw [List.foldl_cons, h, Nat.max_eq_left hle]
    · right
      exact ⟨b, List.mem_cons_of_mem _ hb, by rw [List.foldl_cons]; exact h⟩

lemma inner_fold_split (cells : List (Color × Coordinate)) (wh : ℕ × ℕ) :
    cells.foldl
        (fun wh2 rect => (max wh2.1 (ratToU16 rect.2.x), max wh2.2 (ratToU16 rect.2.y)))
        wh =
      (cells.foldl (fun a rect => max a (ratToU16 rect.2.x)) wh.1,
       cells.foldl (fun a rect => max a (ratToU16 rect.2.y)) wh.2) := by
  induction cells generalizing wh with
  | nil => rfl
  | cons c cells ih =>
    rw [List.foldl_cons, List.foldl_cons, List.foldl_cons, ih]

lemma getDimesions_split (ps : List Pixel) :
    ∀ wh : ℕ × ℕ,
      ps.foldl
          (fun wh p =>
            p.pixels.foldl
              (fun wh2 rect =>
                (max wh2.1 (ratToU16 rect.2.x), max wh2.2 (ratToU16 rect.2.y)))
              wh)
          wh =
        ((allCells ps).foldl (fun a rect => max a (ratToU16 rect.2.x)) wh.1,
         (allCells ps).foldl (fun a rect => max a (ratToU16 rect.2.y)) wh.2) := by
  induction ps with
  | nil => intro wh; rfl
  | cons p ps ih =>
    intro wh
    rw [List.foldl_cons, ih, inner_fold_split, allCells_cons,
      List.foldl_append, List.foldl_append]

lemma getDimesions_eq (ps : List Pixel) :
    Frame.getDimesions ps =
      ((allCells ps).foldl (fun a rect => max a (ratToU16 rect.2.x)) 0,
       (allCells ps).foldl (fun a rect => max a (ratToU16 rect.2.y)) 0) :=
  getDimesions_split ps (0, 0)

lemma ratToU16_le (q : ℚ) : ratToU16 q ≤ 65535 :=
  min_le_left _ _

lemma getDimesions_fst_le (ps : List Pixel) : (Frame.getDimesions ps).1 ≤ 65535 := by
  rw [getDimesions_eq]
  rcases foldl_max_cases (fun rect => ratToU16 rect.2.x) (allCells ps) 0 with h | ⟨b, _, h⟩
  · simp [h]
  · simp only [h]
    exact ratToU16_le _

/-- C7: the derived frame dimensions are the raw maxima of the cell
coordinates: the computed width bounds every cell's X coordinate and is
itself either 0 or one of the cell X coordinates (hence no +1 increment and
no dependence on the cell count), and symmetrically for the height;
`Frame::new` stores exactly these at construction, and `Frame::resize`
recomputes and overwrites them from the current pixel state, touching
nothing else. -/
theorem frame_dimensions_are_raw_maxima (ps : List Pixel) (d : Option ℚ) :
    (∀ p, p ∈ ps → ∀ rect, rect ∈ p.pixels →
        ratToU16 rect.2.x ≤ (Frame.getDimesions ps).1 ∧
        ratToU16 rect.2.y ≤ (Frame.getDimesions ps).2) ∧
    ((Frame.getDimesions ps).1 = 0 ∨
        ∃ p ∈ ps, ∃ rect ∈ p.pixels, (Frame.getDimesions ps).1 = ratToU16 rect.2.x) ∧
    ((Frame.getDimesions ps).2 = 0 ∨
        ∃ p ∈ ps, ∃ rect ∈ p.pixels, (Frame.getDimesions ps).2 = ratToU16 rect.2.y) ∧
    Frame.getDimesions [] = (0, 0) ∧
    (Frame.new ps d).width = (Frame.getDimesions ps).1 ∧
    (Frame.new ps d).height = (Frame.getDimesions ps).2 ∧
    (Frame.new ps d).pixels = ps ∧ (Frame.new ps d).duration = d ∧
    (∀ f : Frame,
        (Frame.resize f).width = (Frame.getDimesions f.pixels).1 ∧
        (Frame.resize f).height = (Frame.getDimesions f.pixels).2 ∧
        (Frame.resize f).pixels = f.pixels ∧ (Frame.resize f).duration = f.duration) := by
  refine ⟨?_, ?_, ?_, rfl, rfl, rfl, rfl, rfl, fun f => ⟨rfl, rfl, rfl, rfl⟩⟩
  · intro p hp rect hr
    rw [getDimesions_eq]
    exact ⟨foldl_max_le_of_mem (fun rect => ratToU16 rect.2.x) (allCells ps) 0 rect
        (mem_allCells hp hr),
      foldl_max_le_of_mem (fun rect => ratToU16 rect.2.y) (allCells ps) 0 rect
        (mem_allCells hp hr)⟩
  · rw [getDimesions_eq]
    rcases foldl_max_cases (fun rect => ratToU16 rect.2.x) (allCells ps) 0 with h | ⟨b, hb, h⟩
    · exact Or.inl h
    · obtain ⟨p, hp, hr⟩ := allCells_mem hb
      exact Or.inr ⟨p, hp, b, hr, h⟩
  · rw [getDimesions_eq]
    rcases foldl_max_cases (fun rect => ratToU16 rect.2.y) (allCells ps) 0 with h | ⟨b, hb, h⟩
    · exact Or.inl h
    · obtain ⟨p, hp, hr⟩ := allCells_mem hb
      exact Or.inr ⟨p, hp, b, hr, h⟩

/-- C7 witness: a single one-cell pixel at `(3, 4)` yields width 3 and
height 4, with the bound from the theorem instantiated at that cell. -/
theorem frame_dimensions_are_raw_maxima_witness :
    ratToU16 (3 : ℚ) ≤
      (Frame.getDimesions [⟨[(Color.RGB 0 0 0, ⟨3, 4⟩)]⟩]).1 ∧
    ratToU16 (4 : ℚ) ≤
      (Frame.getDimesions [⟨[(Color.RGB 0 0 0, ⟨3, 4⟩)]⟩]).2 ∧
    (Frame.new [⟨[(Color.RGB 0 0 0, ⟨3, 4⟩)]⟩] none).width =
      (Frame.getDimesions [⟨[(Color.RGB 0 0 0, ⟨3, 4⟩)]⟩]).1 := by
  have h := frame_dimensions_are_raw_maxima [⟨[(Color.RGB 0 0 0, ⟨3, 4⟩)]⟩] none
  have hm := h.1 ⟨[(Color.RGB 0 0 0, ⟨3, 4⟩)]⟩ (List.mem_singleton.mpr rfl)
    (Color.RGB 0 0 0, ⟨3, 4⟩) (List.mem_singleton.mpr rfl)
  exact ⟨hm.1, hm.2, h.2.2.2.2.1⟩

/-- C9: the mirror computation is unguarded wrapping `u16` subtraction: when
the coordinate is at most the extent the result is exactly
`extent - coordinate`, which lies in `[0, extent]`; when the coordinate
exceeds the extent the subtraction underflows and wraps to
`extent + 2^16 - coordinate`, a value larger than the extent; and for a
frame built by `Frame::new`, every cell coordinate (cast to `u16`) is
bounded by the stored width, so mirroring cells of an accurately sized
frame never underflows. -/
theorem mirror_unguarded_wrap (x e : ℕ) (hx : x < u16Size) (he : e < u16Size) :
    (x ≤ e → Pixel.mirror x e = e - x ∧ Pixel.mirror x e ≤ e) ∧
    (e < x → Pixel.mirror x e = e + u16Size - x ∧ e < Pixel.mirror x e) ∧
    (∀ (ps : List Pixel) (d : Option ℚ) (p : Pixel) (rect : Color × Coordinate),
        p ∈ ps → rect ∈ p.pixels →
        ratToU16 rect.2.x ≤ (Frame.new ps d).width ∧
        Pixel.mirror (ratToU16 rect.2.x) (Frame.new ps d).width =
          (Frame.new ps d).width - ratToU16 rect.2.x) := by
  refine ⟨?_, ?_, ?_⟩
  · intro hxe
    exact ⟨mirror_eq_sub hxe he, by rw [mirror_eq_sub hxe he]; omega⟩
  · intro hex
    have hlt : e + u16Size - x < u16Size := by
      unfold u16Size
      unfold u16Size at hx he
      omega
    have : Pixel.mirror x e = e + u16Size - x := by
      unfold Pixel.mirror
      exact Nat.mod_eq_of_lt hlt
    refine ⟨this, ?_⟩
    rw [this]
    unfold u16Size
    unfold u16Size at hx
    omega
  · intro ps d p rect hp hr
    have hw : (Frame.new ps d).width = (Frame.getDimesions ps).1 := rfl
    have hle : ratToU16 rect.2.x ≤ (Frame.getDimesions ps).1 := by
      rw [getDimesions_eq]
      exact foldl_max_le_of_mem (fun rect => ratToU16 rect.2.x) (allCells ps) 0 rect
        (mem_allCells hp hr)
    have hwid : (Frame.getDimesions ps).1 < u16Size := by
      have := getDimesions_fst_le ps
      unfold u16Size
      omega
    rw [hw]
    exact ⟨hle, mirror_eq_sub hle hwid⟩

/-- C9 witness: concrete wrap behavior at extent 10 for coordinates 3 and
12, and the stale-free mirroring of the single-cell frame at X = 3. -/
theorem mirror_unguarded_wrap_witness :
    Pixel.mirror 3 10 = 7 ∧
    Pixel.mirror 12 10 = 10 + u16Size - 12 ∧
    Pixel.mirror (ratToU16 (3 : ℚ))
        (Frame.new [⟨[(Color.RGB 0 0 0, ⟨3, 4⟩)]⟩] none).width =
      (Frame.new [⟨[(Color.RGB 0 0 0, ⟨3, 4⟩)]⟩] none).width - ratToU16 (3 : ℚ) := by
  have h1 := (mirror_unguarded_wrap 3 10 (by decide) (by decide)).1 (by decide)
  have h2 := (mirror_unguarded_wrap 12 10 (by decide) (by decide)).2.1 (by decide)
  have h3 := ((mirror_unguarded_wrap 0 0 (by decide) (by decide)).2.2
    [⟨[(Color.RGB 0 0 0, ⟨3, 4⟩)]⟩] none ⟨[(Color.RGB 0 0 0, ⟨3, 4⟩)]⟩
    (Color.RGB 0 0 0, ⟨3, 4⟩) (List.mem_singleton.mpr rfl) (List.mem_singleton.mpr rfl)).2
  exact ⟨by rw [h1.1], h2.1, h3⟩

lemma writeRGBA_length (buf : List ℕ) (idx r g b a : ℕ) :
    (writeRGBA buf idx r g b a).length = buf.length := by
  simp [writeRGBA]

lemma writeRGBA_read_r (buf : List ℕ) (idx r g b a : ℕ) (hlt : idx + 3 < buf.length) :
    (writeRGBA buf idx r g b a)[idx]? = some r := by
  unfold writeRGBA
  rw [List.getElem?_set_ne (by omega), List.getElem?_set_ne (by omega),
    List.getElem?_set_ne (by omega), List.getElem?_set_self (by omega)]

lemma writeRGBA_read_g (buf : List ℕ) (idx r g b a : ℕ) (hlt : idx + 3 < buf.length) :
    (writeRGBA buf idx r g b a)[idx + 1]? = some g := by
  unfold writeRGBA
  rw [List.getElem?_set_ne (by omega), List.getElem?_set_ne (by omega),
    List.getElem?_set_self (by simp only [List.length_set]; omega)]

lemma writeRGBA_read_b (buf : List ℕ) (idx r g b a : ℕ) (hlt : idx + 3 < buf.length) :
    (writeRGBA buf idx r g b a)[idx + 2]? = some b := by
  unfold writeRGBA
  rw [List.getElem?_set_ne (by omega),
    List.getElem?_set_self (by simp only [List.length_set]; omega)]

lemma writeRGBA_read_a (buf : List ℕ) (idx r g b a : ℕ) (hlt : idx + 3 < buf.length) :
    (writeRGBA buf idx r g b a)[idx + 3]? = some a := by
  unfold writeRGBA
  rw [List.getElem?_set_self (by simp only [List.length_set]; omega)]

lemma writeRGBA_read_other (buf : List ℕ) (idx r g b a j : ℕ)
    (hj : j < idx ∨ idx + 3 < j) :
    (writeRGBA buf idx r g b a)[j]? = buf[j]? := by
  unfold writeRGBA
  rw [List.getElem?_set_ne (by omega), List.getElem?_set_ne (by omega),
    List.getElem?_set_ne (by omega), List.getElem?_set_ne (by omega)]

lemma row_major_lt {a b w h : ℕ} (ha : a < h) (hb : b < w) : a * w + b < h * w :=
  calc a * w + b < a * w + w := by omega
    _ = (a + 1) * w := by ring
    _ ≤ h * w := Nat.mul_le_mul_right w ha

lemma drawCell_in_bounds_eq (w h : ℕ) (buf : List ℕ) (m : MirrorDirectionValue)
    (off : Coordinate) (cell : Color × Coordinate)
    (hx0 : 0 ≤ roundAway (off.x + (applyMirror m cell.2).x))
    (hy0 : 0 ≤ roundAway (off.y + (applyMirror m cell.2).y))
    (hxw : roundAway (off.x + (applyMirror m cell.2).x) < (w : ℤ))
    (hyh : roundAway (off.y + (applyMirror m cell.2).y) < (h : ℤ)) :
    drawCell w h m off buf cell =
      writeRGBA buf
        (((roundAway (off.y + (applyMirror m cell.2).y)).toNat * w +
            (roundAway (off.x + (applyMirror m cell.2).x)).toNat) * 4)
        (colorBytes cell.1).1 (colorBytes cell.1).2.1 (colorBytes cell.1).2.2.1
        (colorBytes cell.1).2.2.2 := by
  have hg : ¬(roundAway (off.x + (applyMirror m cell.2).x) < 0 ∨
      roundAway (off.y + (applyMirror m cell.2).y) < 0 ∨
      (w : ℤ) ≤ roundAway (off.x + (applyMirror m cell.2).x) ∨
      (h : ℤ) ≤ roundAway (off.y + (applyMirror m cell.2).y)) := by
    rintro (h1 | h1 | h1 | h1) <;> omega
  simp only [drawCell]
  rw [if_neg hg]
  rcases cell with ⟨col, c2⟩
  cases col <;> rfl

/-- C4: drawing a cell whose final screen coordinate (after mirroring,
offset addition and rounding) is inside the screen writes exactly the 4
bytes R, G, B, A at row-major index `(y * width + x) * 4` — with alpha 255
for an RGB color and the stored alpha for an RGBA color — and leaves every
byte outside that 4-byte window unchanged. -/
theorem draw_in_bounds_writes_rgba (w h : ℕ) (buf : List ℕ)
    (m : MirrorDirectionValue) (off : Coordinate) (cell : Color × Coordinate)
    (fx fy : ℤ) (idx : ℕ)
    (hbuf : buf.length = w * h * 4)
    (hfx : fx = roundAway (off.x + (applyMirror m cell.2).x))
    (hfy : fy = roundAway (off.y + (applyMirror m cell.2).y))
    (hx0 : 0 ≤ fx) (hy0 : 0 ≤ fy) (hxw : fx < (w : ℤ)) (hyh : fy < (h : ℤ))
    (hidx : idx = (fy.toNat * w + fx.toNat) * 4) :
    (drawCell w h m off buf cell).length = buf.length ∧
    (drawCell w h m off buf cell)[idx]? = some (colorBytes cell.1).1 ∧
    (drawCell w h m off buf cell)[idx + 1]? = some (colorBytes cell.1).2.1 ∧
    (drawCell w h m off buf cell)[idx + 2]? = some (colorBytes cell.1).2.2.1 ∧
    (drawCell w h m off buf cell)[idx + 3]? = some (colorBytes cell.1).2.2.2 ∧
    (∀ j : ℕ, j < idx ∨ idx + 3 < j → (drawCell w h m off buf cell)[j]? = buf[j]?) ∧
    (∀ r g b : ℕ, colorBytes (Color.RGB r g b) = (r, g, b, 255)) ∧
    (∀ r g b a : ℕ, colorBytes (Color.RGBA r g b a) = (r, g, b, a)) := by
  subst hidx
  subst hfx
  subst hfy
  have hdc := drawCell_in_bounds_eq w h buf m off cell hx0 hy0 hxw hyh
  have hxlt : (roundAway (off.x + (applyMirror m cell.2).x)).toNat < w := by omega
  have hylt : (roundAway (off.y + (applyMirror m cell.2).y)).toNat < h := by omega
  have hrow := row_major_lt hylt hxlt
  rw [Nat.mul_comm h w] at hrow
  have hlt : ((roundAway (off.y + (applyMirror m cell.2).y)).toNat * w +
      (roundAway (off.x + (applyMirror m cell.2).x)).toNat) * 4 + 3 < buf.length := by
    rw [hbuf]
    omega
  rw [hdc]
  exact ⟨writeRGBA_length _ _ _ _ _ _,
    writeRGBA_read_r _ _ _ _ _ _ hlt,
    writeRGBA_read_g _ _ _ _ _ _ hlt,
    writeRGBA_read_b _ _ _ _ _ _ hlt,
    writeRGBA_read_a _ _ _ _ _ _ hlt,
    fun j hj => writeRGBA_read_other _ _ _ _ _ _ j hj,
    fun r g b => rfl,
    fun r g b a => rfl⟩

/-- C4 witness: on a 2x2 screen with all bytes 7, drawing RGB(255,0,0) at
cell (1,1) writes 255 at index 12 and leaves index 0 unchanged. -/
theorem draw_in_bounds_writes_rgba_witness :
    (drawCell 2 2 .None ⟨0, 0⟩ (List.replicate 16 7) (Color.RGB 255 0 0, ⟨1, 1⟩))[12]? =
      some 255 ∧
    (drawCell 2 2 .None ⟨0, 0⟩ (List.replicate 16 7) (Color.RGB 255 0 0, ⟨1, 1⟩))[0]? =
      (List.replicate 16 7 : List ℕ)[0]? := by
  have h := draw_in_bounds_writes_rgba 2 2 (List.replicate 16 7) .None ⟨0, 0⟩
    (Color.RGB 255 0 0, ⟨1, 1⟩) 1 1 12 (by simp)
    (by norm_num [roundAway, applyMirror])
    (by norm_num [roundAway, applyMirror])
    (by norm_num) (by norm_num) (by norm_num) (by norm_num) (by norm_num)
  exact ⟨h.2.1, h.2.2.2.2.2.1 0 (by norm_num)⟩

/-- C5: a cell whose final screen coordinate after mirroring, offset and
rounding is off-screen writes no bytes: the buffer is returned unchanged,
no error is possible (the skip is a total, silent `continue`), and the
remaining cells of the pixel are still processed exactly as if the skipped
cell were absent. -/
theorem draw_off_screen_skips (w h : ℕ) (buf : List ℕ) (m : MirrorDirectionValue)
    (off : Coordinate) (cell : Color × Coordinate)
    (hout : roundAway (off.x + (applyMirror m cell.2).x) < 0 ∨
        roundAway (off.y + (applyMirror m cell.2).y) < 0 ∨
        (w : ℤ) ≤ roundAway (off.x + (applyMirror m cell.2).x) ∨
        (h : ℤ) ≤ roundAway (off.y + (applyMirror m cell.2).y)) :
    drawCell w h m off buf cell = buf ∧
    (∀ rest : List (Color × Coordinate),
        (cell :: rest).foldl (drawCell w h m off) buf =
          rest.foldl (drawCell w h m off) buf) ∧
    (∀ rest : List (Color × Coordinate),
        Pixel.draw ⟨cell :: rest⟩ ⟨w, h, buf⟩ m off =
          Pixel.draw ⟨rest⟩ ⟨w, h, buf⟩ m off) := by
  have h1 : drawCell w h m off buf cell = buf := by
    simp only [drawCell]
    rw [if_pos hout]
  refine ⟨h1, fun rest => ?_, fun rest => ?_⟩
  · rw [List.foldl_cons, h1]
  · show ScreenModel.mk w h ((cell :: rest).foldl (drawCell w h m off) buf) =
      ScreenModel.mk w h (rest.foldl (drawCell w h m off) buf)
    rw [List.foldl_cons, h1]

/-- C5 witness: a cell at X = 5 on a 2x2 screen is skipped and drawing the
rest of the pixel proceeds unchanged. -/
theorem draw_off_screen_skips_witness :
    drawCell 2 2 .None ⟨0, 0⟩ (List.replicate 16 0) (Color.RGB 9 9 9, ⟨5, 0⟩) =
      List.replicate 16 0 ∧
    [(Color.RGB 9 9 9, (⟨5, 0⟩ : Coordinate))].foldl (drawCell 2 2 .None ⟨0, 0⟩)
        (List.replicate 16 0) =
      ([] : List (Color × Coordinate)).foldl (drawCell 2 2 .None ⟨0, 0⟩)
        (List.replicate 16 0) := by
  have h := draw_off_screen_skips 2 2 (List.replicate 16 0) .None ⟨0, 0⟩
    (Color.RGB 9 9 9, ⟨5, 0⟩)
    (Or.inr (Or.inr (Or.inl (by norm_num [roundAway, applyMirror]))))
  exact ⟨h.1, h.2.1 []⟩

end TheGame
